import Mathlib

/-!
Shallow embedding of the `excel_reader` core (src/main.rs): header collapsing
(`collapse_multi_headers`), header uniquification (`process_headers`), data-row
normalization (`extract_data`), and the entry point `process_excel_worksheet`.
Worksheet I/O (`get_worksheet_range`) is replaced by an in-memory row list, as the
spec treats worksheet access as an external collaborator.
-/

namespace ExcelReader

/-- Embedding of calamine's `Data` cell value.  `Str`, `IntV`, `BoolV`, `Empty`
mirror `Data::String`, `Data::Int`, `Data::Bool`, `Data::Empty`.  `FloatV`,
`DateTimeV` and `ErrorV` carry the Display text of `Data::Float`,
`Data::DateTime`/`Data::DateTimeIso`/`Data::DurationIso` and `Data::Error`
(their exact numeric/date formatting is outside the core). -/
inductive Data where
  | Empty : Data
  | Str : String → Data
  | IntV : Int → Data
  | BoolV : Bool → Data
  | FloatV : String → Data
  | DateTimeV : String → Data
  | ErrorV : String → Data
  deriving DecidableEq, Repr

/-- Embedding of calamine's `Display for Data` (`d.to_string()` in main.rs):
`Empty` prints as the empty string, strings print as themselves, integers in
decimal, booleans as `true`/`false`; float/date/error cells print their carried
Display text. -/
def toStringData : Data → String
  | .Empty => ""
  | .Str s => s
  | .IntV i => i.repr
  | .BoolV b => if b then "true" else "false"
  | .FloatV s => s
  | .DateTimeV s => s
  | .ErrorV s => s

/-- Embedding of Rust `part.starts_with(p)` on strings (byte/char prefix test). -/
def strStartsWith (s p : String) : Bool := p.data.isPrefixOf s.data

/-- Embedding of Rust `part.trim().is_empty()`: trimming leading and trailing
whitespace leaves the empty string exactly when every character is whitespace. -/
def trimIsEmpty (s : String) : Bool := s.data.all Char.isWhitespace

/-- The filter predicate of `collapse_multi_headers` (main.rs line 94):
`!part.starts_with("Unnamed") && !part.trim().is_empty()`. -/
def keepPart (part : String) : Bool :=
  !(strStartsWith part "Unnamed") && !(trimIsEmpty part)

/-- Embedding of Rust `Vec::join(" ")` on the surviving parts. -/
def joinSpace : List String → String
  | [] => ""
  | [p] => p
  | p :: q :: rest => p ++ " " ++ joinSpace (q :: rest)

/-- Embedding of `row.get(col_idx).map(|d| d.to_string()).unwrap_or_default()`
(main.rs line 93): the stringified cell at `c`, or `""` past the row's end. -/
def partAt (row : List Data) (c : Nat) : String :=
  ((row[c]?).map toStringData).getD ""

/-- Error kinds surfaced by the core.  `OutOfBounds` is the string error
"One of header row indices is out of bounds" (main.rs line 67),
`EmptyHeaderCells` is "Empty header cells" (main.rs line 87), and
`DataFrameError` stands for any `PolarsError` from frame construction. -/
inductive ExcelError where
  | OutOfBounds : ExcelError
  | EmptyHeaderCells : ExcelError
  | DataFrameError : ExcelError
  deriving DecidableEq, Repr

/-- The collapsed label of column `c` (body of the `for col_idx` loop,
main.rs lines 91-101): stringify the cell at `c` of every designated header
row, filter with `keepPart`, join with a space, and fall back to
`Unnamed_{c}` when nothing survives. -/
def collapseCol (header_cells : List (List Data)) (c : Nat) : String :=
  let parts := (header_cells.map (fun row => partAt row c)).filter keepPart
  if parts = [] then "Unnamed_" ++ Nat.repr c else joinSpace parts

/-- All collapsed labels: one per column `0..cols` where `cols` is the length
of the first designated header row (main.rs line 89). -/
def collapseLabels (first : List Data) (rest : List (List Data)) : List String :=
  (List.range first.length).map (fun c => collapseCol (first :: rest) c)

/-- Embedding of `collapse_multi_headers` (main.rs lines 85-104). -/
def collapse_multi_headers (header_cells : List (List Data)) :
    Except ExcelError (List String) :=
  match header_cells with
  | [] => .error .EmptyHeaderCells
  | first :: rest => .ok (collapseLabels first rest)

/-- Embedding of Rust `Vec::resize(len, v)`: truncate when too long, pad with
`v` when too short. -/
def vecResize (cells : List String) (len : Nat) (v : String) : List String :=
  if len ≤ cells.length then cells.take len
  else cells ++ List.replicate (len - cells.length) v

/-- Embedding of `extract_data` (main.rs lines 129-138): stringify every cell
of every data row, then resize each row to `header_len` with empty strings. -/
def extract_data (data_rows : List (List Data)) (header_len : Nat) :
    List (List String) :=
  data_rows.map (fun row => vecResize (row.map toStringData) header_len "")

/-- The candidate name tried at loop iteration `n` of `process_headers`
(main.rs lines 187-194): the base name itself first, then
`{base}_{suffix}` for suffix 1, 2, ... -/
def candName (base : String) : Nat → String
  | 0 => base
  | n + 1 => base ++ "_" ++ Nat.repr (n + 1)

/-- The `while used_names.contains(&candidate)` loop of `process_headers`,
with explicit fuel: try `candName base n`, `candName base (n+1)`, ... until a
name outside `used` is found.  `pickCand` supplies fuel `used.length + 1`,
which always suffices because the candidates are pairwise distinct strings
(proved below), so the fuel-exhausted branch is unreachable. -/
def findCand (used : List String) (base : String) : Nat → Nat → String
  | 0, n => candName base n
  | fuel + 1, n =>
    if candName base n ∈ used then findCand used base fuel (n + 1)
    else candName base n

/-- The unique name chosen for `base` against the live used-set. -/
def pickCand (used : List String) (base : String) : String :=
  findCand used base (used.length + 1) 0

/-- The `for (i, header)` loop of `process_headers` (main.rs lines 180-198),
threading the position `i` and the used-name set. -/
def processHeadersAux : List String → Nat → List String → List String
  | [], _, _ => []
  | h :: rest, i, used =>
    let base := if h = "" then "Unnamed_" ++ Nat.repr i else h
    let cand := pickCand used base
    cand :: processHeadersAux rest (i + 1) (cand :: used)

/-- Embedding of `process_headers` (main.rs lines 176-200). -/
def process_headers (headers : List String) : List String :=
  processHeadersAux headers 0 []

/-- The output frame: column names paired with column data. -/
structure Frame where
  names : List String
  cols : List (List String)
  deriving DecidableEq, Repr

/-- `true` iff no column name repeats (polars' duplicate-name check). -/
def distinctNames : List String → Bool
  | [] => true
  | n :: rest => !(rest.contains n) && distinctNames rest

/-- `true` iff every column has the length of the first (polars' shape check). -/
def allSameLength : List (List String) → Bool
  | [] => true
  | c :: rest => rest.all (fun d => d.length == c.length)

/-- Modelled from the spec: polars `DataFrame::new` (the Frame Assembler of
§4.5), whose source is not part of this repository.  It fails on duplicate
column names or on columns of differing lengths, and otherwise assembles the
frame. -/
def DataFrame.new (columns : List (String × List String)) :
    Except ExcelError Frame :=
  if distinctNames (columns.map Prod.fst) && allSameLength (columns.map Prod.snd) then
    .ok ⟨columns.map Prod.fst, columns.map Prod.snd⟩
  else .error .DataFrameError

/-- Embedding of `create_dataframe` (main.rs lines 203-214): uniquify the
headers, project column `i` from every normalized row, and assemble.  In the
pipeline every row has exactly `headers.length` cells, so the `row.getD i ""`
indexing agrees with Rust's panicking `row[i]`. -/
def create_dataframe (headers : List String) (data : List (List String)) :
    Except ExcelError Frame :=
  let processed := process_headers headers
  let columns := (List.range processed.length).map (fun i =>
    (processed.getD i "", data.map (fun row => row.getD i "")))
  DataFrame.new columns

/-- Embedding of `process_excel_worksheet` (main.rs lines 55-82) with the
worksheet given as its row list: default the header rows to `[0]`, reject
out-of-bounds header indices, collapse and uniquify the headers, and build the
frame from the rows after `max(header_rows) + 1`. -/
def process_excel_worksheet (rows : List (List Data))
    (headerRows? : Option (List Nat)) : Except ExcelError Frame :=
  let headerRows := headerRows?.getD [0]
  if headerRows.any (fun idx => rows.length ≤ idx) then
    .error .OutOfBounds
  else
    let header_cells := headerRows.map (fun i => rows.getD i [])
    match collapse_multi_headers header_cells with
    | .error e => .error e
    | .ok headers =>
      let dataStart := match headerRows.max? with
        | some m => m + 1
        | none => 1
      let data := extract_data (rows.drop dataStart) headers.length
      create_dataframe headers data

/-! ### Decimal representation: `Nat.repr` is injective

`process_headers` terminates because successive candidate names
`base`, `base_1`, `base_2`, ... are pairwise distinct, which reduces to the
injectivity of the decimal printer `Nat.repr`. -/

/-- Numeric value of a decimal digit character. -/
def charVal (c : Char) : Nat := c.toNat - 48

theorem charVal_digitChar {d : Nat} (h : d < 10) : charVal (Nat.digitChar d) = d := by
  interval_cases d <;> rfl

/-- Fuel-free decimal digit list of `n`, most significant digit first. -/
def decRepr (n : Nat) : List Char :=
  if _h : n < 10 then [Nat.digitChar n]
  else decRepr (n / 10) ++ [Nat.digitChar (n % 10)]
decreasing_by exact Nat.div_lt_self (by omega) (by omega)

theorem decRepr_of_lt {n : Nat} (h : n < 10) : decRepr n = [Nat.digitChar n] := by
  rw [decRepr]; simp [h]

theorem decRepr_of_ge {n : Nat} (h : ¬ n < 10) :
    decRepr n = decRepr (n / 10) ++ [Nat.digitChar (n % 10)] := by
  rw [decRepr]; simp [h]

theorem toDigitsCore_eq_decRepr :
    ∀ (fuel n : Nat) (ds : List Char), n < fuel →
      Nat.toDigitsCore 10 fuel n ds = decRepr n ++ ds := by
  intro fuel
  induction fuel with
  | zero => intro n ds h; omega
  | succ fuel ih =>
    intro n ds _
    rw [Nat.toDigitsCore]
    by_cases h10 : n / 10 = 0
    · have hlt : n < 10 := by
        by_contra hge
        have h1 : 1 ≤ n / 10 := (Nat.one_le_div_iff (by omega)).mpr (by omega)
        omega
      simp [h10, decRepr_of_lt hlt, Nat.mod_eq_of_lt hlt]
    · have hge : ¬ n < 10 := fun hlt => h10 (Nat.div_eq_of_lt hlt)
      have hdiv : n / 10 < fuel := by
        have h1 : n / 10 < n := Nat.div_lt_self (by omega) (by omega)
        omega
      simp only [h10, if_false]
      rw [ih (n / 10) _ hdiv, decRepr_of_ge hge, List.append_assoc]
      rfl

theorem toDigits_eq_decRepr (n : Nat) : Nat.toDigits 10 n = decRepr n := by
  have h := toDigitsCore_eq_decRepr (n + 1) n [] (by omega)
  simpa [Nat.toDigits] using h

/-- Decimal value of a digit string, accumulator style. -/
def evalD (acc : Nat) : List Char → Nat
  | [] => acc
  | c :: cs => evalD (acc * 10 + charVal c) cs

theorem evalD_append (xs ys : List Char) :
    ∀ acc, evalD acc (xs ++ ys) = evalD (evalD acc xs) ys := by
  induction xs with
  | nil => intro acc; rfl
  | cons c cs ih =>
    intro acc
    show evalD (acc * 10 + charVal c) (cs ++ ys) = evalD (evalD acc (c :: cs)) ys
    rw [ih]
    rfl

theorem evalD_decRepr (n : Nat) :
    ∀ acc, evalD acc (decRepr n) = acc * 10 ^ (decRepr n).length + n := by
  induction n using Nat.strong_induction_on with
  | _ n ih =>
    intro acc
    by_cases h : n < 10
    · rw [decRepr_of_lt h]
      show acc * 10 + charVal (Nat.digitChar n) = acc * 10 ^ 1 + n
      rw [charVal_digitChar h, pow_one]
    · rw [decRepr_of_ge h, evalD_append]
      have hlt : n / 10 < n := Nat.div_lt_self (by omega) (by omega)
      rw [ih (n / 10) hlt, List.length_append]
      have hm : n % 10 < 10 := Nat.mod_lt n (by omega)
      show (acc * 10 ^ (decRepr (n / 10)).length + n / 10) * 10 +
          charVal (Nat.digitChar (n % 10)) =
        acc * 10 ^ ((decRepr (n / 10)).length + [Nat.digitChar (n % 10)].length) + n
      rw [charVal_digitChar hm]
      have hp : (10 : Nat) ^ ((decRepr (n / 10)).length + [Nat.digitChar (n % 10)].length) =
          10 ^ (decRepr (n / 10)).length * 10 := by
        rw [List.length_singleton, pow_succ]
      rw [hp, ← mul_assoc]
      generalize acc * 10 ^ (decRepr (n / 10)).length = A
      omega

theorem evalD_zero_decRepr (n : Nat) : evalD 0 (decRepr n) = n := by
  simpa using evalD_decRepr n 0

theorem decRepr_injective : Function.Injective decRepr := by
  intro a b h
  rw [← evalD_zero_decRepr a, ← evalD_zero_decRepr b, h]

theorem natRepr_injective : Function.Injective Nat.repr := by
  intro a b h
  apply decRepr_injective
  rw [← toDigits_eq_decRepr, ← toDigits_eq_decRepr]
  exact List.asString_inj.mp h

/-! ### The candidate search of `process_headers` -/

theorem string_eq_of_data {a b : String} (h : a.data = b.data) : a = b :=
  congrArg String.mk h

theorem underscore_data : ("_" : String).data = ['_'] := rfl

theorem empty_string_data : ("" : String).data = [] := rfl

theorem candName_injective (base : String) : Function.Injective (candName base) := by
  intro j k h
  cases j with
  | zero =>
    cases k with
    | zero => rfl
    | succ k =>
      exfalso
      have hd := congrArg String.data h
      simp only [candName, String.data_append, underscore_data] at hd
      have hl := congrArg List.length hd
      simp only [List.length_append, List.length_cons, List.length_nil] at hl
      omega
  | succ j =>
    cases k with
    | zero =>
      exfalso
      have hd := congrArg String.data h
      simp only [candName, String.data_append, underscore_data] at hd
      have hl := congrArg List.length hd
      simp only [List.length_append, List.length_cons, List.length_nil] at hl
      omega
    | succ k =>
      have hd := congrArg String.data h
      simp only [candName, String.data_append, underscore_data, List.append_assoc,
        List.singleton_append] at hd
      have h2 := List.append_cancel_left hd
      have h3 : (Nat.repr (j + 1)).data = (Nat.repr (k + 1)).data := by
        injection h2
      have h4 : Nat.repr (j + 1) = Nat.repr (k + 1) := string_eq_of_data h3
      exact natRepr_injective h4

/-- Pigeonhole: among the first `used.length + 1` candidate names, one is free. -/
theorem exists_candName_not_mem (used : List String) (base : String) :
    ∃ k, k < used.length + 1 ∧ candName base k ∉ used := by
  by_contra hc
  push_neg at hc
  have hsub : Finset.univ.image (fun k : Fin (used.length + 1) => candName base k.val) ⊆
      used.toFinset := by
    intro x hx
    rcases Finset.mem_image.mp hx with ⟨k, _, rfl⟩
    exact List.mem_toFinset.mpr (hc k.val k.isLt)
  have hcard := Finset.card_le_card hsub
  have hinj : Function.Injective (fun k : Fin (used.length + 1) => candName base k.val) := by
    intro a b hab
    exact Fin.ext (candName_injective base hab)
  rw [Finset.card_image_of_injective _ hinj, Finset.card_univ, Fintype.card_fin] at hcard
  have hle := List.toFinset_card_le used
  omega

theorem findCand_not_mem (used : List String) (base : String) :
    ∀ (fuel start : Nat), (∃ k, k < fuel ∧ candName base (start + k) ∉ used) →
      findCand used base fuel start ∉ used := by
  intro fuel
  induction fuel with
  | zero =>
    intro start h
    rcases h with ⟨k, hk, _⟩
    omega
  | succ fuel ih =>
    intro start h
    rw [findCand]
    by_cases hm : candName base start ∈ used
    · rw [if_pos hm]
      apply ih
      rcases h with ⟨k, hk, hnot⟩
      cases k with
      | zero =>
        rw [Nat.add_zero] at hnot
        exact absurd hm hnot
      | succ k =>
        refine ⟨k, by omega, ?_⟩
        rwa [show start + 1 + k = start + (k + 1) by omega]
    · rw [if_neg hm]
      exact hm

theorem pickCand_not_mem (used : List String) (base : String) :
    pickCand used base ∉ used := by
  apply findCand_not_mem
  rcases exists_candName_not_mem used base with ⟨k, hk, hnot⟩
  exact ⟨k, hk, by simpa using hnot⟩

theorem pickCand_of_not_mem {used : List String} {base : String} (h : base ∉ used) :
    pickCand used base = base := by
  unfold pickCand
  rw [findCand]
  have h0 : candName base 0 ∉ used := by simpa [candName] using h
  rw [if_neg h0]
  rfl

theorem findCand_eq_candName (used : List String) (base : String) :
    ∀ fuel start, ∃ m, findCand used base fuel start = candName base m := by
  intro fuel
  induction fuel with
  | zero => intro start; exact ⟨start, rfl⟩
  | succ fuel ih =>
    intro start
    rw [findCand]
    by_cases hm : candName base start ∈ used
    · rw [if_pos hm]
      exact ih (start + 1)
    · rw [if_neg hm]
      exact ⟨start, rfl⟩

theorem candName_ne_empty {base : String} (hb : base ≠ "") (m : Nat) :
    candName base m ≠ "" := by
  cases m with
  | zero => exact hb
  | succ m =>
    intro he
    have hd := congrArg String.data he
    simp only [candName, String.data_append, underscore_data, empty_string_data] at hd
    have hl := congrArg List.length hd
    simp only [List.length_append, List.length_cons, List.length_nil] at hl
    omega

theorem pickCand_ne_empty {used : List String} {base : String} (hb : base ≠ "") :
    pickCand used base ≠ "" := by
  rcases findCand_eq_candName used base (used.length + 1) 0 with ⟨m, hm⟩
  unfold pickCand
  rw [hm]
  exact candName_ne_empty hb m

theorem unnamed_ne_empty (i : Nat) : "Unnamed_" ++ Nat.repr i ≠ "" := by
  intro he
  have hd := congrArg String.data he
  simp only [String.data_append, empty_string_data] at hd
  rcases List.append_eq_nil.mp hd with ⟨h1, _⟩
  exact (by decide : ("Unnamed_" : String).data ≠ []) h1

/-! ### Invariants of `process_headers` -/

theorem processHeadersAux_length :
    ∀ (hs : List String) (i : Nat) (used : List String),
      (processHeadersAux hs i used).length = hs.length := by
  intro hs
  induction hs with
  | nil => intro i used; rfl
  | cons h rest ih =>
    intro i used
    simp only [processHeadersAux, List.length_cons]
    rw [ih]

theorem processHeadersAux_not_mem_used :
    ∀ (hs : List String) (i : Nat) (used : List String) (x : String),
      x ∈ processHeadersAux hs i used → x ∉ used := by
  intro hs
  induction hs with
  | nil => intro i used x hx; simp [processHeadersAux] at hx
  | cons h rest ih =>
    intro i used x hx
    simp only [processHeadersAux, List.mem_cons] at hx
    rcases hx with rfl | hx
    · exact pickCand_not_mem used _
    · intro hxu
      exact ih (i + 1) _ x hx (List.mem_cons_of_mem _ hxu)

theorem processHeadersAux_nodup :
    ∀ (hs : List String) (i : Nat) (used : List String),
      (processHeadersAux hs i used).Nodup := by
  intro hs
  induction hs with
  | nil => intro i used; simp [processHeadersAux]
  | cons h rest ih =>
    intro i used
    simp only [processHeadersAux]
    refine List.nodup_cons.mpr ⟨?_, ih _ _⟩
    intro hmem
    exact processHeadersAux_not_mem_used rest (i + 1) _ _ hmem (List.mem_cons_self _ _)

theorem processHeadersAux_ne_empty :
    ∀ (hs : List String) (i : Nat) (used : List String) (x : String),
      x ∈ processHeadersAux hs i used → x ≠ "" := by
  intro hs
  induction hs with
  | nil => intro i used x hx; simp [processHeadersAux] at hx
  | cons h rest ih =>
    intro i used x hx
    simp only [processHeadersAux, List.mem_cons] at hx
    rcases hx with rfl | hx
    · apply pickCand_ne_empty
      by_cases hh : h = ""
      · simpa [hh] using unnamed_ne_empty i
      · simp [hh]
    · exact ih (i + 1) _ x hx

theorem processHeadersAux_fixed :
    ∀ (hs : List String) (i : Nat) (used : List String),
      hs.Nodup → (∀ x ∈ hs, x ≠ "") → (∀ x ∈ hs, x ∉ used) →
      processHeadersAux hs i used = hs := by
  intro hs
  induction hs with
  | nil => intro i used _ _ _; rfl
  | cons h rest ih =>
    intro i used hnd hne hnm
    have hh : h ≠ "" := hne h (List.mem_cons_self _ _)
    have hbase : (if h = "" then "Unnamed_" ++ Nat.repr i else h) = h := if_neg hh
    simp only [processHeadersAux, hbase]
    rw [pickCand_of_not_mem (hnm h (List.mem_cons_self _ _))]
    rw [ih (i + 1) (h :: used) (List.nodup_cons.mp hnd).2
      (fun x hx => hne x (List.mem_cons_of_mem _ hx)) ?_]
    intro x hx
    simp only [List.mem_cons]
    push_neg
    refine ⟨?_, hnm x (List.mem_cons_of_mem _ hx)⟩
    intro he
    exact (List.nodup_cons.mp hnd).1 (he ▸ hx)

/-! ### Support lemmas for the collapser and the row normalizer -/

theorem space_data : (" " : String).data = [' '] := rfl

theorem collapseLabels_length (first : List Data) (rest : List (List Data)) :
    (collapseLabels first rest).length = first.length := by
  simp [collapseLabels]

theorem partAt_eq_getD (row : List Data) (c : Nat) :
    partAt row c = toStringData (row.getD c Data.Empty) := by
  unfold partAt
  rcases h : row[c]? with _ | d
  · have hc : ¬ c < row.length := by
      intro hlt
      rw [List.getElem?_eq_getElem hlt] at h
      cases h
    rw [List.getD_eq_default _ _ (by omega)]
    rfl
  · have hc : c < row.length := by
      by_contra hge
      rw [List.getElem?_eq_none (by omega)] at h
      cases h
    rw [List.getD_eq_getElem _ _ hc]
    rw [List.getElem?_eq_getElem hc] at h
    injection h with h
    rw [← h]
    rfl

theorem keepPart_ne_empty {p : String} (hk : keepPart p = true) : p ≠ "" := by
  intro he
  rw [he] at hk
  exact absurd hk (by decide)

theorem joinSpace_ne_empty {parts : List String} (hp : parts ≠ [])
    (hne : ∀ p ∈ parts, p ≠ "") : joinSpace parts ≠ "" := by
  match parts with
  | [] => exact absurd rfl hp
  | [p] => exact hne p (List.mem_singleton_self p)
  | p :: q :: rest =>
    intro he
    have hd := congrArg String.data he
    simp only [joinSpace, String.data_append, empty_string_data, space_data] at hd
    rcases List.append_eq_nil.mp hd with ⟨h1, _⟩
    rcases List.append_eq_nil.mp h1 with ⟨_, h2⟩
    cases h2

theorem collapseCol_ne_empty (header_cells : List (List Data)) (c : Nat) :
    collapseCol header_cells c ≠ "" := by
  unfold collapseCol
  by_cases hp : (header_cells.map (fun row => partAt row c)).filter keepPart = []
  · simp only [hp, if_pos rfl]
    exact unnamed_ne_empty c
  · rw [if_neg hp]
    exact joinSpace_ne_empty hp (fun p hmem => keepPart_ne_empty (List.of_mem_filter hmem))

/-- `process_headers` with the blank-label fallback branch removed: the base
name is always the label itself.  Used to state that the fallback branch is
dead code on collapser output. -/
def processHeadersNoFallbackAux : List String → List String → List String
  | [], _ => []
  | h :: rest, used =>
    let cand := pickCand used h
    cand :: processHeadersNoFallbackAux rest (cand :: used)

/-- `process_headers` without the `Unnamed_{index}` fallback for blank labels. -/
def processHeadersNoFallback (headers : List String) : List String :=
  processHeadersNoFallbackAux headers []

theorem processHeadersAux_eq_noFallback :
    ∀ (hs : List String) (i : Nat) (used : List String),
      (∀ x ∈ hs, x ≠ "") →
      processHeadersAux hs i used = processHeadersNoFallbackAux hs used := by
  intro hs
  induction hs with
  | nil => intro i used _; rfl
  | cons h rest ih =>
    intro i used hne
    have hh : h ≠ "" := hne h (List.mem_cons_self _ _)
    simp only [processHeadersAux, processHeadersNoFallbackAux, if_neg hh]
    rw [ih (i + 1) _ (fun x hx => hne x (List.mem_cons_of_mem _ hx))]

theorem vecResize_length (cells : List String) (len : Nat) (v : String) :
    (vecResize cells len v).length = len := by
  unfold vecResize
  by_cases h : len ≤ cells.length
  · rw [if_pos h, List.length_take]
    omega
  · rw [if_neg h, List.length_append, List.length_replicate]
    omega

theorem vecResize_getD_lt (cells : List String) (len : Nat) (v d : String) (i : Nat)
    (h1 : i < len) (h2 : i < cells.length) :
    (vecResize cells len v).getD i d = cells.getD i d := by
  unfold vecResize
  by_cases h : len ≤ cells.length
  · rw [if_pos h]
    rw [List.getD_eq_getElem _ _ (by rw [List.length_take]; omega),
      List.getD_eq_getElem _ _ h2]
    exact List.getElem_take _
  · rw [if_neg h]
    rw [List.getD_eq_getElem _ _ (by rw [List.length_append, List.length_replicate]; omega),
      List.getD_eq_getElem _ _ h2]
    exact List.getElem_append_left ..

theorem vecResize_getD_ge (cells : List String) (len : Nat) (v d : String) (i : Nat)
    (h1 : i < len) (h2 : cells.length ≤ i) :
    (vecResize cells len v).getD i d = v := by
  unfold vecResize
  rw [if_neg (by omega)]
  rw [List.getD_eq_getElem _ _ (by rw [List.length_append, List.length_replicate]; omega)]
  rw [List.getElem_append_right h2]
  exact List.getElem_replicate _ _

theorem DataFrame_new_ne_oob (columns : List (String × List String)) :
    DataFrame.new columns ≠ .error ExcelError.OutOfBounds := by
  unfold DataFrame.new
  by_cases h : (distinctNames (columns.map Prod.fst) &&
      allSameLength (columns.map Prod.snd)) = true
  · rw [if_pos h]
    intro hc
    cases hc
  · rw [if_neg h]
    intro hc
    cases hc

theorem create_dataframe_ne_oob (headers : List String) (data : List (List String)) :
    create_dataframe headers data ≠ .error ExcelError.OutOfBounds := by
  unfold create_dataframe
  exact DataFrame_new_ne_oob _

/-! ### The claims -/

/-- C1: for every input list of labels, the output of `process_headers` has the
same length as the input and its entries are pairwise distinct and non-empty. -/
theorem c1_process_headers_unique (headers : List String) :
    (process_headers headers).length = headers.length ∧
    (process_headers headers).Nodup ∧
    ∀ x ∈ process_headers headers, x ≠ "" :=
  ⟨processHeadersAux_length headers 0 [], processHeadersAux_nodup headers 0 [],
    fun x hx => processHeadersAux_ne_empty headers 0 [] x hx⟩

/-- Witness for C1 at the input `["A", "A", ""]`. -/
theorem c1_witness : "A_1" ≠ "" :=
  (c1_process_headers_unique ["A", "A", ""]).2.2 "A_1" (by decide)

/-- C2 counterexample: the label `"Unnamed"` is neither blank after trimming
nor a match for the placeholder pattern `Unnamed_*`, yet the collapser's filter
excludes it — collapsing the single header row `["Unnamed"]` yields the
placeholder `"Unnamed_0"` instead of keeping the label. -/
theorem c2_counterexample :
    trimIsEmpty "Unnamed" = false ∧
    strStartsWith "Unnamed" "Unnamed_" = false ∧
    keepPart "Unnamed" = false ∧
    collapse_multi_headers [[Data.Str "Unnamed"]] = .ok ["Unnamed_0"] :=
  ⟨by decide, by decide, by decide, rfl⟩

/-- C2 amended: during header collapsing a stringified raw label is excluded
from the space-joined result exactly when it is blank after trimming
whitespace or starts with the prefix `"Unnamed"` (any label beginning with
`Unnamed`, not only those matching `Unnamed_*`). -/
theorem c2_amended_filter_iff (part : String) :
    keepPart part = false ↔
      (trimIsEmpty part = true ∨ strStartsWith part "Unnamed" = true) := by
  unfold keepPart
  cases strStartsWith part "Unnamed" <;> cases trimIsEmpty part <;> simp

/-- C3: the uniquifier maps `["A", "A", "Unnamed_1"]` to
`["A", "A_1", "Unnamed_1"]` and `["", "", ""]` to
`["Unnamed_0", "Unnamed_1", "Unnamed_2"]`. -/
theorem c3_uniquify_examples :
    process_headers ["A", "A", "Unnamed_1"] = ["A", "A_1", "Unnamed_1"] ∧
    process_headers ["", "", ""] = ["Unnamed_0", "Unnamed_1", "Unnamed_2"] :=
  ⟨by decide, by decide⟩

/-- C4 counterexample: the duplicate header-row index set `[0, 0]` is not
rejected — the entry point succeeds, joining the duplicated row's label with
itself (`"A A"`), instead of failing with `InvalidConfiguration`. -/
theorem c4_counterexample :
    process_excel_worksheet [[Data.Str "A"]] (some [0, 0]) =
      .ok ⟨["A A"], [[]]⟩ := rfl

/-- C4 amended: the entry point fails (with the empty-header-cells error, the
spec's `InvalidConfiguration`) when the header-row index set is empty;
duplicate indices are not rejected but processed, each occurrence
contributing its label parts again. -/
theorem c4_amended_empty_set_fails (rows : List (List Data)) :
    process_excel_worksheet rows (some []) = .error ExcelError.EmptyHeaderCells := rfl

/-- C5: for every worksheet and every non-empty header-row index list, the
entry point fails with `OutOfBounds` iff some requested index is ≥ the row
count. -/
theorem c5_out_of_bounds_iff (rows : List (List Data)) (hrs : List Nat)
    (hne : hrs ≠ []) :
    process_excel_worksheet rows (some hrs) = .error ExcelError.OutOfBounds ↔
      ∃ i ∈ hrs, rows.length ≤ i := by
  have hany_iff : (hrs.any (fun idx => rows.length ≤ idx) = true) ↔
      ∃ i ∈ hrs, rows.length ≤ i := by
    simp [List.any_eq_true]
  unfold process_excel_worksheet
  simp only [Option.getD_some]
  by_cases hany : hrs.any (fun idx => rows.length ≤ idx) = true
  · rw [if_pos hany]
    exact ⟨fun _ => hany_iff.mp hany, fun _ => rfl⟩
  · rw [if_neg hany]
    rcases hrs with _ | ⟨a, t⟩
    · exact absurd rfl hne
    simp only [List.map_cons, collapse_multi_headers]
    constructor
    · intro hcd
      exact absurd hcd (create_dataframe_ne_oob _ _)
    · intro hex
      exact absurd (hany_iff.mpr hex) hany

/-- Witness for C5: header row 10 on a 5-row worksheet is out of bounds. -/
theorem c5_witness :
    process_excel_worksheet (List.replicate 5 ([] : List Data)) (some [10]) =
      .error ExcelError.OutOfBounds :=
  (c5_out_of_bounds_iff (List.replicate 5 []) [10] (by decide)).mpr
    ⟨10, by decide, by decide⟩

/-- C6 counterexample: a worksheet whose only row has zero cells, with header
row 0 designated — the headers collapse to zero columns, yet the entry point
returns an empty frame successfully instead of failing with an
`EmptyHeaderRow` error. -/
theorem c6_counterexample :
    process_excel_worksheet [[]] (some [0]) = .ok ⟨[], []⟩ := rfl

/-- C6 amended: when the first designated header row has zero cells (so the
headers collapse to zero columns), the entry point does not fail: it succeeds
with an empty header list and an empty frame. -/
theorem c6_amended_zero_columns_ok (rows : List (List Data)) (hrs : List Nat)
    (hne : hrs ≠ []) (hbound : ∀ i ∈ hrs, i < rows.length)
    (hzero : (rows.getD (hrs.headD 0) []).length = 0) :
    process_excel_worksheet rows (some hrs) = .ok ⟨[], []⟩ := by
  unfold process_excel_worksheet
  simp only [Option.getD_some]
  have hany : ¬ (hrs.any (fun idx => rows.length ≤ idx) = true) := by
    simp only [List.any_eq_true, not_exists]
    intro i
    simp only [not_and, decide_eq_true_eq]
    intro hi
    have := hbound i hi
    omega
  rw [if_neg hany]
  rcases hrs with _ | ⟨a, t⟩
  · exact absurd rfl hne
  simp only [List.map_cons, collapse_multi_headers]
  have hz' : rows.getD a [] = [] := by
    have hz : (rows.getD a []).length = 0 := by simpa using hzero
    exact List.length_eq_zero.mp hz
  have hcl : collapseLabels (rows.getD a []) (t.map (fun i => rows.getD i [])) = [] := by
    rw [hz']
    rfl
  rw [hcl]
  simp [create_dataframe, process_headers, processHeadersAux, DataFrame.new,
    distinctNames, allSameLength]

/-- Witness for C6's amended statement. -/
theorem c6_witness :
    process_excel_worksheet [[], [Data.Str "x"]] (some [0]) = .ok ⟨[], []⟩ :=
  c6_amended_zero_columns_ok [[], [Data.Str "x"]] [0] (by decide) (by decide)
    (by decide)

/-- C7: for every list of data rows and target width `w`, `extract_data`
returns one normalized row per input row, each of exactly `w` strings: entry
`i` is the stringified input cell `i` when `i` is below both the row length
and `w`; entries past the row's end are empty strings; cells at index `w` and
beyond are discarded.  `extract_data` is total — no error for ragged rows. -/
theorem c7_extract_data_normalizes (dataRows : List (List Data)) (w r i : Nat)
    (hr : r < dataRows.length) :
    (extract_data dataRows w).length = dataRows.length ∧
    ((extract_data dataRows w).getD r []).length = w ∧
    (i < w → i < (dataRows.getD r []).length →
      ((extract_data dataRows w).getD r []).getD i "" =
        toStringData ((dataRows.getD r []).getD i Data.Empty)) ∧
    (i < w → (dataRows.getD r []).length ≤ i →
      ((extract_data dataRows w).getD r []).getD i "" = "") := by
  have hrow : (extract_data dataRows w).getD r [] =
      vecResize ((dataRows.getD r []).map toStringData) w "" := by
    unfold extract_data
    rw [List.getD_eq_getElem _ _ (by rw [List.length_map]; exact hr), List.getElem_map,
      List.getD_eq_getElem _ _ hr]
  refine ⟨by simp [extract_data], ?_, ?_, ?_⟩
  · rw [hrow, vecResize_length]
  · intro h1 h2
    rw [hrow, vecResize_getD_lt _ _ _ _ _ h1 (by rw [List.length_map]; exact h2)]
    rw [List.getD_eq_getElem _ _ (by rw [List.length_map]; exact h2), List.getElem_map,
      List.getD_eq_getElem _ _ h2]
  · intro h1 h2
    rw [hrow, vecResize_getD_ge _ _ _ _ _ h1 (by rw [List.length_map]; exact h2)]

/-- Witness for C7: a 2-cell row against width 4 gives 4 cells, the last two
empty. -/
theorem c7_witness :
    ((extract_data [[Data.Str "a", Data.Str "b"]] 4).getD 0 []).length = 4 ∧
    ((extract_data [[Data.Str "a", Data.Str "b"]] 4).getD 0 []).getD 3 "" = "" :=
  ⟨(c7_extract_data_normalizes [[Data.Str "a", Data.Str "b"]] 4 0 3 (by decide)).2.1,
   (c7_extract_data_normalizes [[Data.Str "a", Data.Str "b"]] 4 0 3 (by decide)).2.2.2
     (by decide) (by decide)⟩

/-- C8: the collapser maps `[["", "Sales", ""]]` to
`["Unnamed_0", "Sales", "Unnamed_2"]` and
`[["Region", "Region"], ["North", "South"]]` to
`["Region North", "Region South"]`; in general its output length equals the
length of the first designated header row, and a missing cell of a shorter
header row contributes exactly what an `Empty` cell would. -/
theorem c8_collapse_examples_and_shape :
    collapse_multi_headers [[Data.Str "", Data.Str "Sales", Data.Str ""]] =
      .ok ["Unnamed_0", "Sales", "Unnamed_2"] ∧
    collapse_multi_headers [[Data.Str "Region", Data.Str "Region"],
      [Data.Str "North", Data.Str "South"]] = .ok ["Region North", "Region South"] ∧
    (∀ (first : List Data) (rest : List (List Data)),
      ∃ l, collapse_multi_headers (first :: rest) = .ok l ∧ l.length = first.length) ∧
    (∀ (row : List Data) (c : Nat), partAt row c = toStringData (row.getD c Data.Empty)) :=
  ⟨rfl, rfl,
    fun first rest => ⟨collapseLabels first rest, rfl, collapseLabels_length first rest⟩,
    partAt_eq_getD⟩

/-- C9: every label the collapser produces is non-empty, so on collapser
output the uniquifier's blank-label fallback branch (`Unnamed_{index}`) is
never taken: `process_headers` agrees with the variant that has no fallback. -/
theorem c9_labels_nonempty_fallback_dead :
    (∀ (first : List Data) (rest : List (List Data)) (l : String),
        l ∈ collapseLabels first rest → l ≠ "") ∧
    (∀ headers : List String, (∀ l ∈ headers, l ≠ "") →
        process_headers headers = processHeadersNoFallback headers) ∧
    (∀ (first : List Data) (rest : List (List Data)),
        process_headers (collapseLabels first rest) =
          processHeadersNoFallback (collapseLabels first rest)) := by
  have h1 : ∀ (first : List Data) (rest : List (List Data)) (l : String),
      l ∈ collapseLabels first rest → l ≠ "" := by
    intro first rest l hl
    unfold collapseLabels at hl
    rcases List.mem_map.mp hl with ⟨c, _, rfl⟩
    exact collapseCol_ne_empty _ c
  have h2 : ∀ headers : List String, (∀ l ∈ headers, l ≠ "") →
      process_headers headers = processHeadersNoFallback headers :=
    fun headers hne => processHeadersAux_eq_noFallback headers 0 [] hne
  exact ⟨h1, h2, fun first rest => h2 _ (h1 first rest)⟩

/-- Witness for C9 at concrete inputs. -/
theorem c9_witness :
    "Unnamed_0" ≠ "" ∧ process_headers ["A"] = processHeadersNoFallback ["A"] :=
  ⟨c9_labels_nonempty_fallback_dead.1 [Data.Str ""] [] "Unnamed_0" (by decide),
   c9_labels_nonempty_fallback_dead.2.1 ["A"] (by decide)⟩

/-- C10: the header uniquifier is idempotent — applying `process_headers` to
its own output returns that output unchanged. -/
theorem c10_process_headers_idempotent (headers : List String) :
    process_headers (process_headers headers) = process_headers headers := by
  unfold process_headers
  apply processHeadersAux_fixed
  · exact processHeadersAux_nodup headers 0 []
  · exact fun x hx => processHeadersAux_ne_empty headers 0 [] x hx
  · exact fun x _ => List.not_mem_nil x

end ExcelReader
